import Mathlib

/-!
Verification of the gacha notation expander of `src/utils/gachaParser.ts`
(image-gacha repository).

Strings are embedded as `List Char` (JS strings are scanned character by
character by every function involved).  The index-based `while` loops of the
source are translated into structural recursions over the character list: a
loop step that executes `i += 2` becomes a recursive call on the tail after
two characters, `i += 1` a call after one character.  The process-level
random source (`Math.random`) is modelled by a stream `g : Nat -> Nat` of
pre-floored draws together with a cursor `Nat` counting how many draws have
been consumed; the JS expression `Math.floor(Math.random() * (i + 1))`
always produces a value in `0..i`, and the model tolerates any natural
number (an out-of-range index makes the swap a no-op, which never happens
for in-range draws).
-/

namespace ImageGacha

/-- The left-brace character (written via its code so that brace characters
never appear in string literals of this file). -/
def lb : Char := '\x7b'

/-- The right-brace character. -/
def rb : Char := '\x7d'

/-- Character lists standing for JS strings. -/
abbrev Str := List Char

/-- The JS `\s` character class (ECMAScript WhiteSpace plus LineTerminator):
space, tab, LF, VT, FF, CR, NBSP, BOM and the Unicode space separators.
The source uses it in the trim regex and in the separator matcher. -/
def jsWhitespace (c : Char) : Bool :=
  c = ' ' ∨ c = '\t' ∨ c = '\n' ∨ c = '\x0b' ∨ c = '\x0c' ∨ c = '\r' ∨
  c = '\u00a0' ∨ c = '\u1680' ∨ c = '\u2000' ∨ c = '\u2001' ∨ c = '\u2002' ∨
  c = '\u2003' ∨ c = '\u2004' ∨ c = '\u2005' ∨ c = '\u2006' ∨ c = '\u2007' ∨
  c = '\u2008' ∨ c = '\u2009' ∨ c = '\u200a' ∨ c = '\u2028' ∨ c = '\u2029' ∨
  c = '\u202f' ∨ c = '\u205f' ∨ c = '\u3000' ∨ c = '\ufeff'

/-- Translation of `unescapeString(str, allowedEscapes)` (gachaParser.ts,
lines 25-64).  A backslash followed by a further character is inspected:
`\` `n` `t` `r` are the standard escapes, a character of `allowedEscapes`
is emitted literally, and for any other follower the backslash is kept
as-is and scanning resumes at the following character.  A character that
is not the start of such an escape (including a trailing backslash) is
emitted unchanged. -/
def unescapeString : Str → List Char → Str
  | '\\' :: c :: rest, allowed =>
    if c = '\\' then '\\' :: unescapeString rest allowed
    else if c = 'n' then '\n' :: unescapeString rest allowed
    else if c = 't' then '\t' :: unescapeString rest allowed
    else if c = 'r' then '\r' :: unescapeString rest allowed
    else if c ∈ allowed then c :: unescapeString rest allowed
    else '\\' :: unescapeString (c :: rest) allowed
  | c :: rest, allowed => c :: unescapeString rest allowed
  | [], _ => []

/-- Translation of the item-trimming step
`item.replace(/^[\s\t\n\r]+|[\s\t\n\r]+$/g, '')` (lines 122 and 224):
the regex removes the maximal leading run and the maximal trailing run of
`\s`-class characters and touches nothing else. -/
def trimItem (s : Str) : Str :=
  (s.dropWhile jsWhitespace).rdropWhile jsWhitespace

/-- The comma-splitting loop of `parseGachaPrompt` (lines 85-115), with the
current-item accumulator made explicit.  On a backslash followed by comma or
a brace only the escaped character is appended (`currentItem += nextChar`)
and the scan advances two positions; on any other backslash-led pair the
backslash alone is appended and the scan advances one position; an
unescaped comma closes the current item; every other character (including
a trailing backslash) is appended.  A non-empty trailing accumulator is
emitted at the end. -/
def splitExpandGo : Str → Str → List Str
  | '\\' :: c :: rest, acc =>
    if c = ',' ∨ c = lb ∨ c = rb then splitExpandGo rest (acc ++ [c])
    else splitExpandGo (c :: rest) (acc ++ ['\\'])
  | ',' :: rest, acc => acc :: splitExpandGo rest []
  | c :: rest, acc => splitExpandGo rest (acc ++ [c])
  | [], acc => if acc.isEmpty then [] else [acc]

/-- The comma-splitting loop of `previewGachaPrompt` (lines 189-219): like
`splitExpandGo` but with an extra branch that keeps both characters of the
standard escape pairs backslash-backslash, `\n`, `\t`, `\r` and advances
two positions. -/
def splitPreviewGo : Str → Str → List Str
  | '\\' :: c :: rest, acc =>
    if c = ',' ∨ c = lb ∨ c = rb then splitPreviewGo rest (acc ++ [c])
    else if c = '\\' ∨ c = 'n' ∨ c = 't' ∨ c = 'r' then
      splitPreviewGo rest (acc ++ ['\\', c])
    else splitPreviewGo (c :: rest) (acc ++ ['\\'])
  | ',' :: rest, acc => acc :: splitPreviewGo rest []
  | c :: rest, acc => splitPreviewGo rest (acc ++ [c])
  | [], acc => if acc.isEmpty then [] else [acc]

/-- The item pipeline shared by both functions after splitting (lines
118-126 and 222-227): trim each raw item, unescape it with allowed custom
escapes brace / brace / comma, and drop the items that became empty. -/
def processRawItems (raw : List Str) : List Str :=
  (raw.map fun it => unescapeString (trimItem it) [lb, rb, ',']).filter
    fun it => !it.isEmpty

/-- Resolved candidate items as computed by `parseGachaPrompt` for a token
content. -/
def processItemsExpand (content : Str) : List Str :=
  processRawItems (splitExpandGo content [])

/-- Resolved candidate items as computed by `previewGachaPrompt` for a
token content. -/
def processItemsPreview (content : Str) : List Str :=
  processRawItems (splitPreviewGo content [])

/-- Numeric value of a digit run, as `parseInt(countStr, 10)` computes it. -/
def digitsToNat (ds : Str) : Nat :=
  ds.foldl (fun n c => 10 * n + (c.toNat - 48)) 0

/-- Quote characters accepted by the separator part of the token pattern. -/
def isQuote (c : Char) : Bool := c = '\'' ∨ c = '"'

/-- Matcher for the lazy separator-body part of the token regex, the
fragment quote-body-quote followed by a closing parenthesis, entered just
after the opening quote.  Mirrors the backtracking order of the regex
engine: at every position it first tries to close (a quote character of
either kind immediately followed by a closing parenthesis), then consumes
one non-quote character, and finally a backslash-quote pair.  Returns the
captured body and the text after the closing parenthesis. -/
def sepBody : Str → Option (Str × Str)
  | [] => none
  | c :: rest =>
    match (if isQuote c then
        match rest with
        | ')' :: r2 => some (([] : Str), r2)
        | _ => none
      else none) with
    | some out => some out
    | none =>
      match (if isQuote c then none
        else (sepBody rest).map fun p => (c :: p.1, p.2)) with
      | some out => some out
      | none =>
        match c, rest with
        | '\\', q :: r2 =>
          if isQuote q then (sepBody r2).map fun p => ('\\' :: q :: p.1, p.2)
          else none
        | _, _ => none

/-- Matcher for what follows the digit run of a token: either a comma,
optional whitespace, a quoted separator and the closing parenthesis, or
the closing parenthesis directly (the optional separator group of the
regex).  Returns the raw captured separator (if any) and the remaining
text. -/
def afterCount : Str → Option (Option Str × Str)
  | ',' :: r1 =>
    match r1.dropWhile jsWhitespace with
    | q :: r3 =>
      if isQuote q then (sepBody r3).map fun p => (some p.1, p.2)
      else none
    | [] => none
  | ')' :: r => some (none, r)
  | _ => none

/-- Matcher for the tail of a token starting at the closing braces: two
right braces, an opening parenthesis, one or more digits, then the
optional separator group and the closing parenthesis.  Returns the parsed
count, the raw separator and the remaining text. -/
def tryTail (s : Str) : Option (Nat × Option Str × Str) :=
  match s with
  | a :: b :: '(' :: r =>
    if a = rb ∧ b = rb then
      let ds := r.takeWhile Char.isDigit
      if ds.isEmpty then none
      else
        match afterCount (r.dropWhile Char.isDigit) with
        | some (sep, rest) => some (digitsToNat ds, sep, rest)
        | none => none
    else none
  | _ => none

/-- The lazy content loop of the token regex, entered just after the two
opening braces.  At every position it first tries to finish the token via
`tryTail`; otherwise it consumes one unit in the alternation order of the
regex: any single non-brace character first, then an escaped-brace pair.
Returns the captured content, count, raw separator and remaining text. -/
def contentLoop : Str → Option (Str × Nat × Option Str × Str)
  | [] => none
  | c :: rest =>
    match tryTail (c :: rest) with
    | some (k, sep, rest') => some ([], k, sep, rest')
    | none =>
      match (if c = lb ∨ c = rb then none
        else (contentLoop rest).map fun p => (c :: p.1, p.2)) with
      | some out => some out
      | none =>
        match c, rest with
        | '\\', d :: r2 =>
          if d = lb ∨ d = rb then
            (contentLoop r2).map fun p => ('\\' :: d :: p.1, p.2)
          else none
        | _, _ => none

/-- Attempt to match the full token grammar at the head of `s`: two left
braces followed by the content loop. -/
def matchTokenAt (s : Str) : Option (Str × Nat × Option Str × Str) :=
  match s with
  | a :: b :: r => if a = lb ∧ b = lb then contentLoop r else none
  | _ => none

/-- The join separator of a token (lines 80-82 and 184-186): the unescaped
custom separator when one was captured, a single space otherwise. -/
def resolveSeparator (sepOpt : Option Str) : Str :=
  match sepOpt with
  | some sep => unescapeString sep ['(', ')', '\'', '"']
  | none => [' ']

/-- Replacement computed by the `previewGachaPrompt` callback for one
matched token (lines 180-236): if no resolved items remain the matched
text itself is returned, otherwise the first `min count len` items joined
with the resolved separator. -/
def applyTokenPreview (matched content : Str) (count : Nat)
    (sepOpt : Option Str) : Str :=
  let processed := processItemsPreview content
  if processed.isEmpty then matched
  else
    List.intercalate (resolveSeparator sepOpt)
      (processed.take (min count processed.length))

/-- Bounds-checked list indexing (JS array access within the shuffle). -/
def nthOpt : List α → Nat → Option α
  | [], _ => none
  | a :: _, 0 => some a
  | _ :: as, n + 1 => nthOpt as n

/-- One Fisher-Yates swap `[a[i], a[j]] = [a[j], a[i]]` on the list model.
Both indices are in range on every execution of the source loop; out of
range the swap leaves the list unchanged. -/
def swapAt (l : List α) (i j : Nat) : List α :=
  match nthOpt l i, nthOpt l j with
  | some a, some b => (l.set i b).set j a
  | _, _ => l

/-- The Fisher-Yates loop of `shuffleArray` (lines 161-168): the counter
runs from `len - 1` down to `1`; at counter `i` one draw `g σ` (the value
`Math.floor(Math.random() * (i + 1))`, always between `0` and `i`) is
consumed and positions `i` and `g σ` are swapped. -/
def shuffleGo (g : Nat → Nat) : Nat → List α → Nat → List α × Nat
  | 0, l, σ => (l, σ)
  | i + 1, l, σ => shuffleGo g i (swapAt l (i + 1) (g σ)) (σ + 1)

/-- Translation of `shuffleArray(array)` with the random source explicit. -/
def shuffleArray (l : List α) (g : Nat → Nat) (σ : Nat) : List α × Nat :=
  shuffleGo g (l.length - 1) l σ

/-- Translation of `selectRandomItems(items, count)` (lines 146-154):
shuffle and return everything when `count >= items.length`, otherwise
shuffle and keep the first `count` items. -/
def selectRandomItems (l : List α) (count : Nat) (g : Nat → Nat) (σ : Nat) :
    List α × Nat :=
  if l.length ≤ count then shuffleArray l g σ
  else ((shuffleArray l g σ).1.take count, (shuffleArray l g σ).2)

/-- Replacement computed by the `parseGachaPrompt` callback for one matched
token (lines 76-137), threading the random source: if no resolved items
remain the matched text itself is returned and no draw is consumed,
otherwise `min count len` randomly selected items are joined with the
resolved separator. -/
def applyTokenExpand (g : Nat → Nat) (matched content : Str) (count : Nat)
    (sepOpt : Option Str) (σ : Nat) : Str × Nat :=
  let processed := processItemsExpand content
  if processed.isEmpty then (matched, σ)
  else
    let sel := selectRandomItems processed (min count processed.length) g σ
    (List.intercalate (resolveSeparator sepOpt) sel.1, sel.2)

/-- The global-replace scan of `previewGachaPrompt`: at every position try
the token pattern; on a match emit the replacement and continue after the
matched span, otherwise emit the character and move one position.  The
fuel argument (instantiated with the text length, an upper bound on the
number of steps since every step consumes at least one character) makes
the recursion structural. -/
def previewScan : Nat → Str → Str
  | 0, s => s
  | _ + 1, [] => []
  | fuel + 1, c :: rest =>
    match matchTokenAt (c :: rest) with
    | some (content, count, sepOpt, rest') =>
      let matched :=
        (c :: rest).take ((c :: rest).length - rest'.length)
      applyTokenPreview matched content count sepOpt ++ previewScan fuel rest'
    | none => c :: previewScan fuel rest

/-- Translation of `previewGachaPrompt(prompt)` (lines 176-237). -/
def previewGachaPrompt (s : Str) : Str :=
  previewScan s.length s

/-- The global-replace scan of `parseGachaPrompt`, threading the random
source through the replacements from left to right. -/
def expandScan (g : Nat → Nat) : Nat → Str → Nat → Str × Nat
  | 0, s, σ => (s, σ)
  | _ + 1, [], σ => ([], σ)
  | fuel + 1, c :: rest, σ =>
    match matchTokenAt (c :: rest) with
    | some (content, count, sepOpt, rest') =>
      let matched :=
        (c :: rest).take ((c :: rest).length - rest'.length)
      let rep := applyTokenExpand g matched content count sepOpt σ
      let tail := expandScan g fuel rest' rep.2
      (rep.1 ++ tail.1, tail.2)
    | none =>
      let tail := expandScan g fuel rest σ
      (c :: tail.1, tail.2)

/-- Translation of `parseGachaPrompt(prompt)` (lines 71-138) with the
random source explicit: returns the expanded text together with the state
of the random cursor. -/
def parseGachaPrompt (g : Nat → Nat) (s : Str) (σ : Nat) : Str × Nat :=
  expandScan g s.length s σ

/-- Scan deciding whether the token pattern matches anywhere in the text
(at any suffix), with the same fuel discipline as the replace scans. -/
def hasTokenGo : Nat → Str → Bool
  | _, [] => false
  | 0, _ => true
  | fuel + 1, c :: rest => (matchTokenAt (c :: rest)).isSome || hasTokenGo fuel rest

/-- Whether the token pattern matches anywhere in `s`. -/
def hasToken (s : Str) : Bool :=
  hasTokenGo s.length s

/-- The preview scan with the ambient random source (stream and cursor)
threaded through explicitly, exactly as `previewGachaPrompt` executes in a
process owning `Math.random`: no branch of the source of preview contains
a call to the random source, so the cursor is passed through unchanged by
every step. -/
def previewScanS (g : Nat → Nat) : Nat → Str → Nat → Str × Nat
  | 0, s, σ => (s, σ)
  | _ + 1, [], σ => ([], σ)
  | fuel + 1, c :: rest, σ =>
    match matchTokenAt (c :: rest) with
    | some (content, count, sepOpt, rest') =>
      let matched :=
        (c :: rest).take ((c :: rest).length - rest'.length)
      let tail := previewScanS g fuel rest' σ
      (applyTokenPreview matched content count sepOpt ++ tail.1, tail.2)
    | none =>
      let tail := previewScanS g fuel rest σ
      (c :: tail.1, tail.2)

/-- `previewGachaPrompt` in the instrumented world. -/
def previewGachaPromptS (g : Nat → Nat) (s : Str) (σ : Nat) : Str × Nat :=
  previewScanS g s.length s σ

/-- Removal of the backslash of every comma-or-brace escape pair: the
transformation that the expand splitter applies to the characters it copies
into the accumulator, relative to a splitter that would copy escape pairs
raw. -/
def stripPairs : Str → Str
  | '\\' :: c :: rest =>
    if c = ',' ∨ c = lb ∨ c = rb then c :: stripPairs rest
    else '\\' :: stripPairs (c :: rest)
  | c :: rest => c :: stripPairs rest
  | [] => []

/-- Whether a text contains two consecutive backslashes. -/
def hasDBS : Str → Bool
  | '\\' :: '\\' :: _ => true
  | _ :: rest => hasDBS rest
  | [] => false

/-- Reference item splitter following the words of spec section 4.2: on a
backslash followed by comma or a brace BOTH characters are appended
literally to the accumulator (the escape pair is preserved raw at the
splitting stage) and the scan advances two positions; an unescaped comma
closes the item; otherwise the character is appended and the scan advances
one position; a non-empty trailing accumulator is emitted. -/
def refSplitGo : Str → Str → List Str
  | '\\' :: c :: rest, acc =>
    if c = ',' ∨ c = lb ∨ c = rb then refSplitGo rest (acc ++ ['\\', c])
    else refSplitGo (c :: rest) (acc ++ ['\\'])
  | ',' :: rest, acc => acc :: refSplitGo rest []
  | c :: rest, acc => refSplitGo rest (acc ++ [c])
  | [], acc => if acc.isEmpty then [] else [acc]

/-- Resolved items of the section 4.2 reference algorithm: reference split,
then the same trim / unescape / drop-empty pipeline. -/
def refProcessItems (content : Str) : List Str :=
  processRawItems (refSplitGo content [])

/-- C1: `unescapeString` satisfies the unescape contract of spec section 4.3
exactly, case by case: on a backslash followed by a further character it
emits a backslash for `\\`, newline / tab / carriage return for `\n` `\t`
`\r`, the follower itself when the follower is an allowed custom escape,
and otherwise the backslash alone, re-examining the follower ordinarily;
every other character (including a trailing backslash) is emitted as-is,
and the empty string maps to the empty string.  The function is a total
Lean function, hence pure and never failing. -/
theorem unescapeString_contract (allowed : List Char) :
    (unescapeString [] allowed = []) ∧
    (∀ rest, unescapeString ('\\' :: '\\' :: rest) allowed =
      '\\' :: unescapeString rest allowed) ∧
    (∀ rest, unescapeString ('\\' :: 'n' :: rest) allowed =
      '\n' :: unescapeString rest allowed) ∧
    (∀ rest, unescapeString ('\\' :: 't' :: rest) allowed =
      '\t' :: unescapeString rest allowed) ∧
    (∀ rest, unescapeString ('\\' :: 'r' :: rest) allowed =
      '\r' :: unescapeString rest allowed) ∧
    (∀ c rest, c ≠ '\\' → c ≠ 'n' → c ≠ 't' → c ≠ 'r' → c ∈ allowed →
      unescapeString ('\\' :: c :: rest) allowed =
        c :: unescapeString rest allowed) ∧
    (∀ c rest, c ≠ '\\' → c ≠ 'n' → c ≠ 't' → c ≠ 'r' → c ∉ allowed →
      unescapeString ('\\' :: c :: rest) allowed =
        '\\' :: unescapeString (c :: rest) allowed) ∧
    (∀ c rest, c ≠ '\\' → unescapeString (c :: rest) allowed =
      c :: unescapeString rest allowed) ∧
    (unescapeString ['\\'] allowed = ['\\']) := by
  refine ⟨rfl, fun rest => by simp [unescapeString],
    fun rest => by simp [unescapeString],
    fun rest => by simp [unescapeString],
    fun rest => by simp [unescapeString],
    fun c rest h1 h2 h3 h4 h5 => by simp [unescapeString, h1, h2, h3, h4, h5],
    fun c rest h1 h2 h3 h4 h5 => by simp [unescapeString, h1, h2, h3, h4, h5],
    fun c rest h1 => ?_, rfl⟩
  rw [unescapeString.eq_def]
  split
  · rename_i c2 rest2 heq
    injection heq with e1 e2
    exact absurd e1 h1
  · rename_i c2 rest2 nc heq
    injection heq with e1 e2
    subst e1; subst e2
    rfl
  · rename_i heq
    exact absurd heq (List.cons_ne_nil c rest)

/-- Witness for C1 at concrete inputs: the escape pair backslash-x with
allowed set consisting of the left brace is not an escape, so the backslash
is kept and `x` re-examined. -/
theorem unescapeString_contract_witness :
    unescapeString ['\\', 'x'] [lb] = ['\\', 'x'] ∧
    unescapeString ['\\', lb, 'q'] [lb] = [lb, 'q'] := by
  constructor
  · have h := (unescapeString_contract [lb]).2.2.2.2.2.2.1 'x' []
      (by decide) (by decide) (by decide) (by decide) (by decide)
    rw [h]
    rfl
  · have h := (unescapeString_contract [lb]).2.2.2.2.2.1 lb ['q']
      (by decide) (by decide) (by decide) (by decide) (by decide)
    rw [h]
    rfl

theorem hasTokenGo_cons_false {fuel : Nat} {c : Char} {rest : Str}
    (h : hasTokenGo (fuel + 1) (c :: rest) = false) :
    matchTokenAt (c :: rest) = none ∧ hasTokenGo fuel rest = false := by
  rw [hasTokenGo] at h
  rcases Bool.or_eq_false_iff.mp h with ⟨h1, h2⟩
  exact ⟨Option.not_isSome_iff_eq_none.mp (by simp [h1]), h2⟩

theorem previewScan_eq_self :
    ∀ fuel s, s.length ≤ fuel → hasTokenGo fuel s = false →
      previewScan fuel s = s := by
  intro fuel
  induction fuel with
  | zero => intro s _ _; rfl
  | succ fuel ih =>
    intro s hlen htok
    cases s with
    | nil => rfl
    | cons c rest =>
      obtain ⟨h1, h2⟩ := hasTokenGo_cons_false htok
      rw [previewScan, h1]
      exact congrArg (c :: ·)
        (ih rest (Nat.le_of_succ_le_succ hlen) h2)

theorem expandScan_eq_self (g : Nat → Nat) :
    ∀ fuel s σ, s.length ≤ fuel → hasTokenGo fuel s = false →
      expandScan g fuel s σ = (s, σ) := by
  intro fuel
  induction fuel with
  | zero => intro s σ _ _; rfl
  | succ fuel ih =>
    intro s σ hlen htok
    cases s with
    | nil => rfl
    | cons c rest =>
      obtain ⟨h1, h2⟩ := hasTokenGo_cons_false htok
      rw [expandScan, h1]
      rw [ih rest σ (Nat.le_of_succ_le_succ hlen) h2]

/-- C7: a text in which the token grammar matches nowhere is returned
byte-for-byte unchanged by both functions (and expansion leaves the random
cursor untouched); in particular the double-braced list with no trailing
count is unchanged by both. -/
theorem no_match_left_untouched :
    (∀ t, hasToken t = false → previewGachaPrompt t = t) ∧
    (∀ t g σ, hasToken t = false → parseGachaPrompt g t σ = (t, σ)) ∧
    previewGachaPrompt ("\x7b\x7ba,b\x7d\x7d".toList) =
      "\x7b\x7ba,b\x7d\x7d".toList ∧
    (∀ g σ, parseGachaPrompt g ("\x7b\x7ba,b\x7d\x7d".toList) σ =
      ("\x7b\x7ba,b\x7d\x7d".toList, σ)) := by
  refine ⟨fun t h => previewScan_eq_self t.length t le_rfl h,
    fun t g σ h => expandScan_eq_self g t.length t σ le_rfl h,
    rfl,
    fun g σ => expandScan_eq_self g _ _ σ le_rfl (by decide)⟩

/-- Witness for C7 at a concrete input with no token occurrence. -/
theorem no_match_left_untouched_witness :
    hasToken ("xy".toList) = false ∧
    previewGachaPrompt ("xy".toList) = "xy".toList :=
  ⟨by decide, no_match_left_untouched.1 ("xy".toList) (by decide)⟩

/-- C6 counterexample: preview is not idempotent.  The input consists of a
token whose count parenthesis encloses a second well-formed token; the
first preview resolves only the inner token and thereby assembles a new
well-formed token, which a second preview resolves further. -/
theorem preview_not_idempotent_cex :
    previewGachaPrompt
        (previewGachaPrompt ("\x7b\x7b2\x7d\x7d(\x7b\x7b3\x7d\x7d(1))".toList)) ≠
      previewGachaPrompt ("\x7b\x7b2\x7d\x7d(\x7b\x7b3\x7d\x7d(1))".toList) := by
  decide

/-- C6 (amended): preview is idempotent on every text whose preview output
contains no further token occurrence; a second application then returns
the output unchanged. -/
theorem preview_idempotent_when_output_tokenfree (t : Str)
    (h : hasToken (previewGachaPrompt t) = false) :
    previewGachaPrompt (previewGachaPrompt t) = previewGachaPrompt t :=
  previewScan_eq_self _ _ le_rfl h

/-- Witness for the amended C6 at a concrete input. -/
theorem preview_idempotent_when_output_tokenfree_witness :
    hasToken (previewGachaPrompt ("\x7b\x7ba,b\x7d\x7d(1)".toList)) = false ∧
    previewGachaPrompt (previewGachaPrompt ("\x7b\x7ba,b\x7d\x7d(1)".toList)) =
      previewGachaPrompt ("\x7b\x7ba,b\x7d\x7d(1)".toList) :=
  ⟨by decide, preview_idempotent_when_output_tokenfree _ (by decide)⟩

theorem previewScanS_eq :
    ∀ (g : Nat → Nat) fuel s σ,
      previewScanS g fuel s σ = (previewScan fuel s, σ) := by
  intro g fuel
  induction fuel with
  | zero => intro s σ; rfl
  | succ fuel ih =>
    intro s σ
    cases s with
    | nil => rfl
    | cons c rest =>
      rw [previewScanS, previewScan]
      cases h : matchTokenAt (c :: rest) with
      | none => simp only [ih]
      | some v =>
        obtain ⟨content, count, sepOpt, rest'⟩ := v
        simp only [ih]

/-- C5: preview is deterministic and never consumes the random source.
For any two streams and any two cursor states the instrumented preview
returns the same text, the cursor comes back unchanged (the random source
is never called on any execution path), and the result agrees with the
pure `previewGachaPrompt`. -/
theorem preview_deterministic_no_entropy
    (g₁ g₂ : Nat → Nat) (t : Str) (σ₁ σ₂ : Nat) :
    (previewGachaPromptS g₁ t σ₁).1 = (previewGachaPromptS g₂ t σ₂).1 ∧
    (previewGachaPromptS g₁ t σ₁).2 = σ₁ ∧
    (previewGachaPromptS g₁ t σ₁).1 = previewGachaPrompt t := by
  rw [previewGachaPromptS, previewGachaPromptS, previewScanS_eq, previewScanS_eq]
  exact ⟨rfl, rfl, rfl⟩

theorem nthOpt_some {α : Type} :
    ∀ (l : List α) (n : Nat) (a : α), nthOpt l n = some a →
      ∃ h : n < l.length, l.get ⟨n, h⟩ = a := by
  intro l
  induction l with
  | nil => intro n a h; exact absurd h (by simp [nthOpt])
  | cons x xs ih =>
    intro n a h
    cases n with
    | zero =>
      injection h with h2
      exact ⟨Nat.succ_pos _, h2⟩
    | succ m =>
      obtain ⟨hm, hget⟩ := ih m a h
      exact ⟨Nat.succ_lt_succ hm, hget⟩

theorem get_cons_set_perm {α : Type} (a : α) :
    ∀ (xs : List α) (j : Nat) (hj : j < xs.length),
      (xs.get ⟨j, hj⟩ :: xs.set j a).Perm (a :: xs) := by
  intro xs
  induction xs with
  | nil => intro j hj; exact absurd hj (by simp)
  | cons y ys ih =>
    intro j hj
    cases j with
    | zero => exact List.Perm.swap a y ys
    | succ m =>
      have hm : m < ys.length := Nat.lt_of_succ_lt_succ hj
      have e : ((y :: ys).get ⟨m + 1, hj⟩ :: (y :: ys).set (m + 1) a)
          = ys.get ⟨m, hm⟩ :: y :: ys.set m a := rfl
      rw [e]
      exact (List.Perm.swap y _ _).trans
        (((ih m hm).cons y).trans (List.Perm.swap a y ys))

theorem set_set_perm {α : Type} :
    ∀ (l : List α) (i j : Nat) (hi : i < l.length) (hj : j < l.length),
      ((l.set i (l.get ⟨j, hj⟩)).set j (l.get ⟨i, hi⟩)).Perm l := by
  intro l
  induction l with
  | nil => intro i j hi; exact absurd hi (by simp)
  | cons x xs ih =>
    intro i j hi hj
    cases i with
    | zero =>
      cases j with
      | zero => exact List.Perm.refl _
      | succ m =>
        have hm : m < xs.length := Nat.lt_of_succ_lt_succ hj
        exact get_cons_set_perm x xs m hm
    | succ n =>
      cases j with
      | zero =>
        have hn : n < xs.length := Nat.lt_of_succ_lt_succ hi
        exact get_cons_set_perm x xs n hn
      | succ m =>
        have hn : n < xs.length := Nat.lt_of_succ_lt_succ hi
        have hm : m < xs.length := Nat.lt_of_succ_lt_succ hj
        exact (ih n m hn hm).cons x

theorem swapAt_perm {α : Type} (l : List α) (i j : Nat) :
    (swapAt l i j).Perm l := by
  rw [swapAt]
  cases hi : nthOpt l i with
  | none => exact List.Perm.refl _
  | some a =>
    cases hj : nthOpt l j with
    | none => exact List.Perm.refl _
    | some b =>
      obtain ⟨hbi, hgi⟩ := nthOpt_some l i a hi
      obtain ⟨hbj, hgj⟩ := nthOpt_some l j b hj
      show ((l.set i b).set j a).Perm l
      rw [← hgi, ← hgj]
      exact set_set_perm l i j hbi hbj

theorem shuffleGo_perm {α : Type} (g : Nat → Nat) :
    ∀ (i : Nat) (l : List α) (σ : Nat), ((shuffleGo g i l σ).1).Perm l := by
  intro i
  induction i with
  | zero => intro l σ; exact List.Perm.refl _
  | succ i ih =>
    intro l σ
    exact (ih (swapAt l (i + 1) (g σ)) (σ + 1)).trans
      (swapAt_perm l (i + 1) (g σ))

theorem shuffleArray_perm {α : Type} (l : List α) (g : Nat → Nat) (σ : Nat) :
    ((shuffleArray l g σ).1).Perm l :=
  shuffleGo_perm g (l.length - 1) l σ

/-- C4: for every candidate list, count and draw stream, the random
selection used by expand returns exactly `min count len` items that form a
prefix of one single permutation of the candidate list (hence items taken
at pairwise-distinct positions, never reusing a candidate slot, and no
duplicates whenever the candidates are distinct); and whenever
`count >= len` the result is a permutation of the entire candidate set. -/
theorem selectRandomItems_spec {α : Type} (l : List α) (count : Nat)
    (g : Nat → Nat) (σ : Nat) :
    (selectRandomItems l count g σ).1.length = min count l.length ∧
    (∃ p : List α, p.Perm l ∧
      (selectRandomItems l count g σ).1 = p.take count) ∧
    (l.length ≤ count → (selectRandomItems l count g σ).1.Perm l) ∧
    (l.Nodup → (selectRandomItems l count g σ).1.Nodup) := by
  have hperm : ((shuffleArray l g σ).1).Perm l := shuffleArray_perm l g σ
  have hlen : (shuffleArray l g σ).1.length = l.length := hperm.length_eq
  rw [selectRandomItems]
  by_cases hc : l.length ≤ count
  · rw [if_pos hc]
    refine ⟨by rw [hlen, Nat.min_eq_right hc], ⟨(shuffleArray l g σ).1,
      hperm, (List.take_of_length_le (hlen ▸ hc)).symm⟩,
      fun _ => hperm, fun hnd => hperm.symm.nodup hnd⟩
  · rw [if_neg hc]
    refine ⟨by rw [List.length_take, hlen], ⟨(shuffleArray l g σ).1,
      hperm, rfl⟩, fun h => absurd h hc,
      fun hnd => ((List.take_sublist count _).nodup) (hperm.symm.nodup hnd)⟩

/-- Witness for C4 at a concrete candidate list, count and stream. -/
theorem selectRandomItems_spec_witness :
    (selectRandomItems [0, 1, 2] 5 id 0).1.Perm [0, 1, 2] ∧
    (selectRandomItems [0, 1, 2] 5 id 0).1.Nodup := by
  have h := selectRandomItems_spec [0, 1, 2] 5 id 0
  exact ⟨h.2.2.1 (by decide), h.2.2.2 (by decide)⟩

theorem stripPairs_cons_ne (c : Char) (rest : Str) (h : c ≠ '\\') :
    stripPairs (c :: rest) = c :: stripPairs rest := by
  rw [stripPairs.eq_def]
  split
  · rename_i c2 rest2 heq
    injection heq with e1 e2
    exact absurd e1 h
  · rename_i c2 rest2 nc heq
    injection heq with e1 e2
    subst e1; subst e2
    rfl
  · rename_i heq
    exact absurd heq (List.cons_ne_nil c rest)

theorem stripPairs_single (c : Char) : stripPairs [c] = [c] := by
  rw [stripPairs.eq_def]
  split
  · rename_i c2 rest2 heq
    injection heq with e1 e2
    exact absurd e2 (List.cons_ne_nil c2 rest2).symm
  · rename_i c2 rest2 nc heq
    injection heq with e1 e2
    subst e1; subst e2
    rfl
  · rename_i heq
    exact absurd heq (List.cons_ne_nil c [])

theorem stripPairs_pair (c : Char) (rest : Str)
    (hc : c = ',' ∨ c = lb ∨ c = rb) :
    stripPairs ('\\' :: c :: rest) = c :: stripPairs rest := by
  rw [stripPairs]
  rw [if_pos hc]

theorem stripPairs_lone (c : Char) (rest : Str)
    (hc : ¬(c = ',' ∨ c = lb ∨ c = rb)) :
    stripPairs ('\\' :: c :: rest) = '\\' :: stripPairs (c :: rest) := by
  rw [stripPairs]
  rw [if_neg hc]

theorem stripPairs_ne_nil : ∀ (l : Str), l ≠ [] → stripPairs l ≠ [] := by
  intro l
  induction l using stripPairs.induct with
  | case1 c rest hc ih =>
    intro _
    rw [stripPairs_pair c rest hc]
    exact List.cons_ne_nil _ _
  | case2 c rest hc ih =>
    intro _
    rw [stripPairs_lone c rest hc]
    exact List.cons_ne_nil _ _
  | case3 c rest nc ih =>
    intro _
    cases rest with
    | nil =>
      rw [stripPairs_single]
      exact List.cons_ne_nil _ _
    | cons d tl =>
      have hne : c ≠ '\\' := fun hcc => nc d tl hcc rfl
      rw [stripPairs_cons_ne c _ hne]
      exact List.cons_ne_nil _ _
  | case4 => intro h; exact absurd rfl h

theorem stripPairs_append_headOk :
    ∀ (xs ys : Str),
      (∀ d, ys.head? = some d → ¬(d = ',' ∨ d = lb ∨ d = rb)) →
      stripPairs (xs ++ ys) = stripPairs xs ++ stripPairs ys := by
  intro xs
  induction xs using stripPairs.induct with
  | case1 c rest hc ih =>
    intro ys hys
    show stripPairs ('\\' :: c :: (rest ++ ys)) = _
    rw [stripPairs_pair c _ hc, stripPairs_pair c rest hc, ih ys hys]
    rfl
  | case2 c rest hc ih =>
    intro ys hys
    show stripPairs ('\\' :: c :: (rest ++ ys)) = _
    rw [stripPairs_lone c _ hc, stripPairs_lone c rest hc]
    rw [show (c :: (rest ++ ys)) = (c :: rest) ++ ys from rfl]
    rw [ih ys hys]
    rfl
  | case3 c rest nc ih =>
    intro ys hys
    cases rest with
    | nil =>
      rcases eq_or_ne c '\\' with rfl | hne
      · cases ys with
        | nil => rfl
        | cons d tl =>
          show stripPairs ('\\' :: d :: tl) = stripPairs ['\\'] ++ _
          rw [stripPairs_lone d tl (hys d rfl), stripPairs_single]
          rfl
      · show stripPairs (c :: ys) = stripPairs [c] ++ stripPairs ys
        rw [stripPairs_cons_ne c ys hne, stripPairs_single]
        rfl
    | cons d tl =>
      have hne : c ≠ '\\' := fun hcc => nc d tl hcc rfl
      show stripPairs (c :: ((d :: tl) ++ ys)) = _
      rw [stripPairs_cons_ne c _ hne, stripPairs_cons_ne c _ hne, ih ys hys]
      rfl
  | case4 => intro ys _; rfl

theorem stripPairs_append_lastOk :
    ∀ (xs ys : Str), xs.getLast? ≠ some '\\' →
      stripPairs (xs ++ ys) = stripPairs xs ++ stripPairs ys := by
  intro xs
  induction xs using stripPairs.induct with
  | case1 c rest hc ih =>
    intro ys hlast
    show stripPairs ('\\' :: c :: (rest ++ ys)) = _
    rw [stripPairs_pair c _ hc, stripPairs_pair c rest hc]
    cases rest with
    | nil => rw [show stripPairs ([] ++ ys) = stripPairs [] ++ stripPairs ys from rfl]; rfl
    | cons d tl =>
      have : (d :: tl).getLast? ≠ some '\\' := by
        rwa [List.getLast?_cons_cons, List.getLast?_cons_cons] at hlast
      rw [ih ys this]
      rfl
  | case2 c rest hc ih =>
    intro ys hlast
    show stripPairs ('\\' :: c :: (rest ++ ys)) = _
    rw [stripPairs_lone c _ hc, stripPairs_lone c rest hc]
    rw [show (c :: (rest ++ ys)) = (c :: rest) ++ ys from rfl]
    have : (c :: rest).getLast? ≠ some '\\' := by
      rwa [List.getLast?_cons_cons] at hlast
    rw [ih ys this]
    rfl
  | case3 c rest nc ih =>
    intro ys hlast
    cases rest with
    | nil =>
      have hne : c ≠ '\\' := by
        intro hcc
        exact hlast (by simp [hcc])
      show stripPairs (c :: ys) = stripPairs [c] ++ stripPairs ys
      rw [stripPairs_cons_ne c ys hne, stripPairs_single]
      rfl
    | cons d tl =>
      have hne : c ≠ '\\' := fun hcc => nc d tl hcc rfl
      have : (d :: tl).getLast? ≠ some '\\' := by
        rwa [List.getLast?_cons_cons] at hlast
      show stripPairs (c :: ((d :: tl) ++ ys)) = _
      rw [stripPairs_cons_ne c _ hne, stripPairs_cons_ne c _ hne, ih ys this]
      rfl
  | case4 => intro ys _; rfl

theorem getLast?_cons_of_ne_nil {c : Char} {l : Str} (h : l ≠ []) :
    (c :: l).getLast? = l.getLast? := by
  cases l with
  | nil => exact absurd rfl h
  | cons d tl => exact List.getLast?_cons_cons ..

theorem stripPairs_getLast? : ∀ (l : Str),
    (stripPairs l).getLast? = l.getLast? := by
  intro l
  induction l using stripPairs.induct with
  | case1 c rest hc ih =>
    rw [stripPairs_pair c rest hc]
    cases rest with
    | nil => rfl
    | cons d tl =>
      rw [getLast?_cons_of_ne_nil (stripPairs_ne_nil _ (List.cons_ne_nil d tl)),
        ih, List.getLast?_cons_cons, List.getLast?_cons_cons]
  | case2 c rest hc ih =>
    rw [stripPairs_lone c rest hc]
    rw [getLast?_cons_of_ne_nil (stripPairs_ne_nil _ (List.cons_ne_nil c rest)),
      ih, List.getLast?_cons_cons]
  | case3 c rest nc ih =>
    cases rest with
    | nil =>
      rw [stripPairs_single]
    | cons d tl =>
      have hne : c ≠ '\\' := fun hcc => nc d tl hcc rfl
      rw [stripPairs_cons_ne c _ hne,
        getLast?_cons_of_ne_nil (stripPairs_ne_nil _ (List.cons_ne_nil d tl)),
        ih, List.getLast?_cons_cons]
  | case4 => rfl

theorem stripPairs_id_of_no_bs : ∀ (l : Str), (∀ x ∈ l, x ≠ '\\') →
    stripPairs l = l := by
  intro l
  induction l with
  | nil => intro _; rfl
  | cons c rest ih =>
    intro h
    rw [stripPairs_cons_ne c rest (h c (by simp))]
    rw [ih fun x hx => h x (by simp [hx])]

theorem hasDBS_cons_cons (x y : Char) (tl : Str) :
    hasDBS (x :: y :: tl) =
      if x = '\\' ∧ y = '\\' then true else hasDBS (y :: tl) := by
  by_cases h : x = '\\' ∧ y = '\\'
  · rw [if_pos h]
    obtain ⟨rfl, rfl⟩ := h
    rfl
  · rw [if_neg h]
    rw [hasDBS.eq_def]
    split
    · rename_i tl2 heq
      injection heq with e1 e2
      injection e2 with e3 e4
      exact absurd ⟨e1, e3⟩ h
    · rename_i x2 rest2 nc heq
      injection heq with e1 e2
      subst e1; subst e2
      rfl
    · rename_i heq
      exact absurd heq (List.cons_ne_nil _ _)

theorem hasDBS_single (x : Char) : hasDBS [x] = false := by
  rw [hasDBS.eq_def]
  split
  · rename_i tl heq
    injection heq with e1 e2
    exact absurd e2 (List.cons_ne_nil _ _).symm
  · rename_i x2 rest2 nc heq
    injection heq with e1 e2
    subst e1; subst e2
    rfl
  · rename_i heq
    exact absurd heq (List.cons_ne_nil _ _)

theorem hasDBS_cons_false {x : Char} {rest : Str}
    (h : hasDBS (x :: rest) = false) : hasDBS rest = false := by
  cases rest with
  | nil => rfl
  | cons y tl =>
    rw [hasDBS_cons_cons] at h
    by_cases hxy : x = '\\' ∧ y = '\\'
    · rw [if_pos hxy] at h; exact absurd h (by simp)
    · rwa [if_neg hxy] at h

theorem hasDBS_append_false :
    ∀ (xs ys : Str), hasDBS (xs ++ ys) = false →
      hasDBS xs = false ∧ hasDBS ys = false := by
  intro xs
  induction xs with
  | nil => intro ys h; exact ⟨rfl, h⟩
  | cons x xs ih =>
    intro ys h
    have h' : hasDBS (xs ++ ys) = false := hasDBS_cons_false h
    obtain ⟨h1, h2⟩ := ih ys h'
    refine ⟨?_, h2⟩
    cases xs with
    | nil => exact hasDBS_single x
    | cons y tl =>
      rw [hasDBS_cons_cons]
      by_cases hxy : x = '\\' ∧ y = '\\'
      · exfalso
        rw [show ((x :: y :: tl) ++ ys) = x :: y :: (tl ++ ys) from rfl,
          hasDBS_cons_cons, if_pos hxy] at h
        exact absurd h (by simp)
      · rw [if_neg hxy]; exact h1

theorem hasDBS_false_dropWhile (p : Char → Bool) {l : Str}
    (h : hasDBS l = false) : hasDBS (l.dropWhile p) = false :=
  (hasDBS_append_false _ _ ((List.takeWhile_append_dropWhile (p := p) (l := l)).symm ▸ h)).2

theorem hasDBS_false_rdropWhile (p : Char → Bool) {l : Str}
    (h : hasDBS l = false) : hasDBS (l.rdropWhile p) = false := by
  obtain ⟨t, ht⟩ := List.rdropWhile_prefix p l
  exact (hasDBS_append_false _ _ (ht ▸ h)).1

theorem unescape_cons_ne (allowed : List Char) (c : Char) (rest : Str)
    (h : c ≠ '\\') :
    unescapeString (c :: rest) allowed = c :: unescapeString rest allowed := by
  rw [unescapeString.eq_def]
  split
  · rename_i c2 rest2 heq
    injection heq with e1 e2
    exact absurd e1 h
  · rename_i c2 rest2 nc heq
    injection heq with e1 e2
    subst e1; subst e2
    rfl
  · rename_i heq
    exact absurd heq (List.cons_ne_nil c rest)

theorem unescape_esc_allowed (allowed : List Char) (c : Char) (rest : Str)
    (h1 : c ≠ '\\') (h2 : c ≠ 'n') (h3 : c ≠ 't') (h4 : c ≠ 'r')
    (h5 : c ∈ allowed) :
    unescapeString ('\\' :: c :: rest) allowed =
      c :: unescapeString rest allowed := by
  simp [unescapeString, h1, h2, h3, h4, h5]

theorem unescape_esc_other (allowed : List Char) (c : Char) (rest : Str)
    (h1 : c ≠ '\\') (h2 : c ≠ 'n') (h3 : c ≠ 't') (h4 : c ≠ 'r')
    (h5 : c ∉ allowed) :
    unescapeString ('\\' :: c :: rest) allowed =
      '\\' :: unescapeString (c :: rest) allowed := by
  simp [unescapeString, h1, h2, h3, h4, h5]

theorem hasDBS_cons_cons_false_left {c : Char} {rest : Str}
    (h : hasDBS ('\\' :: c :: rest) = false) : c ≠ '\\' := by
  intro hcc
  subst hcc
  rw [hasDBS_cons_cons, if_pos ⟨rfl, rfl⟩] at h
  exact absurd h (by simp)

theorem unescape_stripPairs :
    ∀ (l : Str), hasDBS l = false →
      unescapeString (stripPairs l) [lb, rb, ','] =
        unescapeString l [lb, rb, ','] := by
  intro l
  induction l using stripPairs.induct with
  | case1 c rest hc ih =>
    intro h
    have hdbs : hasDBS rest = false :=
      hasDBS_cons_false (hasDBS_cons_false h)
    rw [stripPairs_pair c rest hc]
    rcases hc with rfl | rfl | rfl
    · rw [unescape_cons_ne _ ',' _ (by decide),
        unescape_esc_allowed _ ',' rest (by decide) (by decide) (by decide)
          (by decide) (by decide), ih hdbs]
    · rw [unescape_cons_ne _ lb _ (by decide),
        unescape_esc_allowed _ lb rest (by decide) (by decide) (by decide)
          (by decide) (by decide), ih hdbs]
    · rw [unescape_cons_ne _ rb _ (by decide),
        unescape_esc_allowed _ rb rest (by decide) (by decide) (by decide)
          (by decide) (by decide), ih hdbs]
  | case2 c rest hc ih =>
    intro h
    have hcr : hasDBS (c :: rest) = false := hasDBS_cons_false h
    have hcne : c ≠ '\\' := hasDBS_cons_cons_false_left h
    have key : unescapeString (stripPairs rest) [lb, rb, ','] =
        unescapeString rest [lb, rb, ','] := by
      have hh := ih hcr
      rw [stripPairs_cons_ne c _ hcne, unescape_cons_ne _ c _ hcne,
        unescape_cons_ne _ c _ hcne] at hh
      injection hh
    rw [stripPairs_lone c rest hc, stripPairs_cons_ne c _ hcne]
    by_cases hn : c = 'n'
    · subst hn; simp [unescapeString, key]
    · by_cases ht : c = 't'
      · subst ht; simp [unescapeString, key]
      · by_cases hr : c = 'r'
        · subst hr; simp [unescapeString, key]
        · have hnotmem : c ∉ ([lb, rb, ','] : List Char) := by
            simp only [List.mem_cons, List.not_mem_nil, or_false]
            push_neg
            refine ⟨?_, ?_, ?_⟩ <;> intro hcc <;> exact hc (by simp [hcc])
          rw [unescape_esc_other _ c _ hcne hn ht hr hnotmem,
            unescape_esc_other _ c _ hcne hn ht hr hnotmem,
            unescape_cons_ne _ c _ hcne, unescape_cons_ne _ c _ hcne, key]
  | case3 c rest nc ih =>
    intro h
    cases rest with
    | nil => rw [stripPairs_single]
    | cons d tl =>
      have hne : c ≠ '\\' := fun hcc => nc d tl hcc rfl
      rw [stripPairs_cons_ne c _ hne, unescape_cons_ne _ c _ hne,
        unescape_cons_ne _ c _ hne, ih (hasDBS_cons_false h)]
  | case4 => intro _; rfl

theorem jsWhitespace_ne_bs {x : Char} (hx : jsWhitespace x = true) :
    x ≠ '\\' := by
  intro he
  subst he
  exact absurd hx (by decide)

theorem dropWhile_stripPairs : ∀ (l : Str),
    (stripPairs l).dropWhile jsWhitespace =
      stripPairs (l.dropWhile jsWhitespace) := by
  intro l
  induction l using stripPairs.induct with
  | case1 c rest hc ih =>
    have hwc : jsWhitespace c = false := by
      rcases hc with rfl | rfl | rfl <;> decide
    rw [stripPairs_pair c rest hc, List.dropWhile_cons, List.dropWhile_cons]
    rw [hwc, show jsWhitespace '\\' = false by decide]
    simp only [Bool.false_eq_true, if_false]
    rw [stripPairs_pair c rest hc]
  | case2 c rest hc ih =>
    rw [stripPairs_lone c rest hc, List.dropWhile_cons, List.dropWhile_cons]
    simp only [show jsWhitespace '\\' = false by decide, Bool.false_eq_true,
      if_false]
    rw [stripPairs_lone c rest hc]
  | case3 c rest nc ih =>
    have e : stripPairs (c :: rest) = c :: stripPairs rest := by
      cases rest with
      | nil => rw [stripPairs_single]; rfl
      | cons d tl => exact stripPairs_cons_ne c _ fun hcc => nc d tl hcc rfl
    rw [e, List.dropWhile_cons, List.dropWhile_cons]
    by_cases hwc : jsWhitespace c = true
    · rw [hwc]
      simp only [if_true]
      exact ih
    · rw [Bool.not_eq_true] at hwc
      rw [hwc]
      simp only [Bool.false_eq_true, if_false]
      rw [e]
  | case4 => rfl

theorem rdropWhile_append_rtakeWhile (p : Char → Bool) (l : Str) :
    l.rdropWhile p ++ l.rtakeWhile p = l := by
  rw [List.rdropWhile, List.rtakeWhile, ← List.reverse_append,
    List.takeWhile_append_dropWhile, List.reverse_reverse]

theorem rdropWhile_append_of_all (p : Char → Bool) (xs ys : Str)
    (h : ∀ x ∈ ys, p x) :
    (xs ++ ys).rdropWhile p = xs.rdropWhile p := by
  rw [List.rdropWhile, List.rdropWhile, List.reverse_append,
    List.dropWhile_append_of_pos (by simpa using h)]

theorem rdropWhile_stripPairs (l : Str) :
    (stripPairs l).rdropWhile jsWhitespace =
      stripPairs (l.rdropWhile jsWhitespace) := by
  by_cases hcore : l.rdropWhile jsWhitespace = []
  · have hall : ∀ x ∈ l, jsWhitespace x = true :=
      List.rdropWhile_eq_nil_iff.mp hcore
    have hid : stripPairs l = l :=
      stripPairs_id_of_no_bs l fun x hx => jsWhitespace_ne_bs (hall x hx)
    rw [hid, hcore]
    rfl
  · have hsufws : ∀ x ∈ l.rtakeWhile jsWhitespace, jsWhitespace x = true :=
      fun x hx => List.mem_rtakeWhile_imp hx
    have hsufid : stripPairs (l.rtakeWhile jsWhitespace) =
        l.rtakeWhile jsWhitespace :=
      stripPairs_id_of_no_bs _ fun x hx => jsWhitespace_ne_bs (hsufws x hx)
    have hsplit : stripPairs l =
        stripPairs (l.rdropWhile jsWhitespace) ++ l.rtakeWhile jsWhitespace := by
      conv_lhs => rw [← rdropWhile_append_rtakeWhile jsWhitespace l]
      rw [stripPairs_append_headOk _ _ ?hok, hsufid]
      case hok =>
        intro d hd hdset
        have hdmem : d ∈ l.rtakeWhile jsWhitespace :=
          List.mem_of_mem_head? hd
        have := hsufws d hdmem
        rcases hdset with rfl | rfl | rfl <;> exact absurd this (by decide)
    rw [hsplit, rdropWhile_append_of_all _ _ _ hsufws]
    have hlast :
        ¬jsWhitespace ((l.rdropWhile jsWhitespace).getLast hcore) = true :=
      List.rdropWhile_last_not jsWhitespace l hcore
    apply List.rdropWhile_eq_self_iff.mpr
    intro hne
    have h1 : (stripPairs (l.rdropWhile jsWhitespace)).getLast? =
        (l.rdropWhile jsWhitespace).getLast? := stripPairs_getLast? _
    rw [List.getLast?_eq_getLast _ hne,
      List.getLast?_eq_getLast _ hcore] at h1
    injection h1 with h1
    rw [h1]
    exact hlast

theorem trim_stripPairs (l : Str) :
    trimItem (stripPairs l) = stripPairs (trimItem l) := by
  rw [trimItem, trimItem, dropWhile_stripPairs, rdropWhile_stripPairs]

theorem resolved_item_stripPairs (r : Str) (h : hasDBS r = false) :
    unescapeString (trimItem (stripPairs r)) [lb, rb, ','] =
      unescapeString (trimItem r) [lb, rb, ','] := by
  rw [trim_stripPairs]
  exact unescape_stripPairs _
    (hasDBS_false_rdropWhile _ (hasDBS_false_dropWhile _ h))

theorem splitExpandGo_pair (c : Char) (rest acc : Str)
    (hc : c = ',' ∨ c = lb ∨ c = rb) :
    splitExpandGo ('\\' :: c :: rest) acc = splitExpandGo rest (acc ++ [c]) := by
  rw [splitExpandGo]
  rw [if_pos hc]

theorem splitExpandGo_lone (c : Char) (rest acc : Str)
    (hc : ¬(c = ',' ∨ c = lb ∨ c = rb)) :
    splitExpandGo ('\\' :: c :: rest) acc =
      splitExpandGo (c :: rest) (acc ++ ['\\']) := by
  rw [splitExpandGo]
  rw [if_neg hc]

theorem splitExpandGo_comma (rest acc : Str) :
    splitExpandGo (',' :: rest) acc = acc :: splitExpandGo rest [] := rfl

theorem splitExpandGo_step_other (c : Char) (rest acc : Str)
    (h1 : c = '\\' → rest = []) (h2 : c ≠ ',') :
    splitExpandGo (c :: rest) acc = splitExpandGo rest (acc ++ [c]) := by
  rw [splitExpandGo.eq_def]
  split
  · rename_i c2 rest2 heq
    injection heq with e1 e2
    subst e1
    rw [h1 rfl] at e2
    exact absurd e2.symm (List.cons_ne_nil c2 rest2)
  · rename_i rest2 heq
    injection heq with e1 e2
    exact absurd e1 h2
  · rename_i c2 rest2 nc hnc heq
    injection heq with e1 e2
    subst e1; subst e2
    rfl
  · rename_i heq
    exact absurd heq (List.cons_ne_nil c rest)

theorem refSplitGo_pair (c : Char) (rest acc : Str)
    (hc : c = ',' ∨ c = lb ∨ c = rb) :
    refSplitGo ('\\' :: c :: rest) acc = refSplitGo rest (acc ++ ['\\', c]) := by
  rw [refSplitGo]
  rw [if_pos hc]

theorem refSplitGo_lone (c : Char) (rest acc : Str)
    (hc : ¬(c = ',' ∨ c = lb ∨ c = rb)) :
    refSplitGo ('\\' :: c :: rest) acc =
      refSplitGo (c :: rest) (acc ++ ['\\']) := by
  rw [refSplitGo]
  rw [if_neg hc]

theorem refSplitGo_comma (rest acc : Str) :
    refSplitGo (',' :: rest) acc = acc :: refSplitGo rest [] := rfl

theorem refSplitGo_step_other (c : Char) (rest acc : Str)
    (h1 : c = '\\' → rest = []) (h2 : c ≠ ',') :
    refSplitGo (c :: rest) acc = refSplitGo rest (acc ++ [c]) := by
  rw [refSplitGo.eq_def]
  split
  · rename_i c2 rest2 heq
    injection heq with e1 e2
    subst e1
    rw [h1 rfl] at e2
    exact absurd e2.symm (List.cons_ne_nil c2 rest2)
  · rename_i rest2 heq
    injection heq with e1 e2
    exact absurd e1 h2
  · rename_i c2 rest2 nc hnc heq
    injection heq with e1 e2
    subst e1; subst e2
    rfl
  · rename_i heq
    exact absurd heq (List.cons_ne_nil c rest)

theorem getLast?_append_single (l : Str) (a : Char) :
    (l ++ [a]).getLast? = some a := by
  simp

theorem splitExpandGo_strip_refSplitGo :
    ∀ (content accR : Str),
      (∀ y, accR.getLast? = some '\\' → content.head? = some y →
        ¬(y = ',' ∨ y = lb ∨ y = rb)) →
      splitExpandGo content (stripPairs accR) =
        (refSplitGo content accR).map stripPairs := by
  intro content accR
  induction content, accR using refSplitGo.induct with
  | case1 c rest acc hc ih =>
    intro _
    rw [refSplitGo_pair c rest acc hc, splitExpandGo_pair c rest _ hc]
    have hcbs : c ≠ '\\' := by
      rcases hc with rfl | rfl | rfl <;> decide
    have e : stripPairs (acc ++ ['\\', c]) = stripPairs acc ++ [c] := by
      rw [stripPairs_append_headOk acc ['\\', c] ?hd, stripPairs_pair c [] hc]
      · rfl
      case hd =>
        intro d hd
        injection hd with hd
        subst hd
        decide
    rw [← e]
    refine ih fun y hlast hhead hyset => ?_
    rw [show acc ++ ['\\', c] = (acc ++ ['\\']) ++ [c] by simp,
      getLast?_append_single] at hlast
    injection hlast with hlast
    exact hcbs hlast
  | case2 c rest acc hc ih =>
    intro _
    rw [refSplitGo_lone c rest acc hc, splitExpandGo_lone c rest _ hc]
    have e : stripPairs (acc ++ ['\\']) = stripPairs acc ++ ['\\'] := by
      rw [stripPairs_append_headOk acc ['\\'] ?hd, stripPairs_single]
      case hd =>
        intro d hd
        injection hd with hd
        subst hd
        decide
    rw [← e]
    refine ih fun y hlast hhead => ?_
    injection hhead with hhead
    subst hhead
    exact hc
  | case3 rest acc ih =>
    intro _
    rw [refSplitGo_comma rest acc, splitExpandGo_comma rest _, List.map_cons]
    exact congrArg _ (ih fun y hlast => by simp at hlast)
  | case4 c rest acc nc hnc ih =>
    intro hinv
    have h1 : c = '\\' → rest = [] := by
      intro hcc
      cases rest with
      | nil => rfl
      | cons d tl => exact absurd rfl (nc d tl hcc)
    have h2 : c ≠ ',' := fun hcc => hnc hcc
    rw [refSplitGo_step_other c rest acc h1 h2,
      splitExpandGo_step_other c rest _ h1 h2]
    have e : stripPairs (acc ++ [c]) = stripPairs acc ++ [c] := by
      by_cases hcset : c = ',' ∨ c = lb ∨ c = rb
      · have hlastacc : acc.getLast? ≠ some '\\' := fun hacc =>
          hinv c hacc rfl hcset
        rw [stripPairs_append_lastOk acc [c] hlastacc, stripPairs_single]
      · rw [stripPairs_append_headOk acc [c] ?hd, stripPairs_single]
        case hd =>
          intro d hd
          injection hd with hd
          subst hd
          exact hcset
    rw [← e]
    refine ih fun y hlast hhead hyset => ?_
    rw [getLast?_append_single] at hlast
    injection hlast with hlast
    subst hlast
    rw [h1 rfl] at hhead
    exact absurd hhead (by simp)
  | case5 acc h =>
    intro _
    have hae : acc = [] := List.isEmpty_iff.mp h
    subst hae
    rfl
  | case6 acc h =>
    intro _
    have hane : acc ≠ [] := by
      intro hae
      subst hae
      exact h rfl
    obtain ⟨x, xs, hx⟩ :=
      List.exists_cons_of_ne_nil (stripPairs_ne_nil acc hane)
    obtain ⟨a, as, ha⟩ := List.exists_cons_of_ne_nil hane
    subst ha
    show splitExpandGo [] (stripPairs (a :: as)) = _
    rw [hx]
    show [x :: xs] = List.map stripPairs (refSplitGo [] (a :: as))
    rw [show refSplitGo [] (a :: as) = [a :: as] from rfl, List.map_cons]
    rw [← hx]
    rfl

theorem refSplitGo_items_no_dbs :
    ∀ (content acc : Str), hasDBS (acc ++ content) = false →
      ∀ r ∈ refSplitGo content acc, hasDBS r = false := by
  intro content acc
  induction content, acc using refSplitGo.induct with
  | case1 c rest acc hc ih =>
    intro h r hr
    rw [refSplitGo_pair c rest acc hc] at hr
    refine ih ?_ r hr
    rw [show (acc ++ ['\\', c]) ++ rest = acc ++ ('\\' :: c :: rest) by simp]
    exact h
  | case2 c rest acc hc ih =>
    intro h r hr
    rw [refSplitGo_lone c rest acc hc] at hr
    refine ih ?_ r hr
    rw [show (acc ++ ['\\']) ++ (c :: rest) = acc ++ ('\\' :: c :: rest) by simp]
    exact h
  | case3 rest acc ih =>
    intro h r hr
    rw [refSplitGo_comma rest acc] at hr
    rcases List.mem_cons.mp hr with heq | hr2
    · subst heq
      exact (hasDBS_append_false _ (',' :: rest) h).1
    · refine ih ?_ r hr2
      exact hasDBS_cons_false (hasDBS_append_false acc (',' :: rest) h).2
  | case4 c rest acc nc hnc ih =>
    intro h r hr
    have h1 : c = '\\' → rest = [] := by
      intro hcc
      cases rest with
      | nil => rfl
      | cons d tl => exact absurd rfl (nc d tl hcc)
    have h2 : c ≠ ',' := fun hcc => hnc hcc
    rw [refSplitGo_step_other c rest acc h1 h2] at hr
    refine ih ?_ r hr
    rw [show (acc ++ [c]) ++ rest = acc ++ (c :: rest) by simp]
    exact h
  | case5 acc hae =>
    intro h r hr
    have : refSplitGo [] acc = [] := by
      rw [refSplitGo]
      rw [if_pos hae]
    rw [this] at hr
    exact absurd hr (List.not_mem_nil r)
  | case6 acc hane =>
    intro h r hr
    have : refSplitGo [] acc = [acc] := by
      rw [refSplitGo]
      rw [if_neg hane]
    rw [this] at hr
    have heq := List.mem_singleton.mp hr
    subst heq
    rw [List.append_nil] at h
    exact h

/-- C3 counterexample: the expand splitter does not append both characters
of an escape pair (it appends the escaped character alone), and the
resolved items do not always coincide with the reference algorithm of spec
section 4.2: on the content a-backslash-backslash-comma-b the reference
yields one item (a, backslash, comma, b) while the code yields one item
(a, comma, b). -/
theorem expand_split_preserved_raw_cex :
    splitExpandGo ['\\', ','] [] = [[',']] ∧
    refProcessItems ("a\\\\,b".toList) = ["a\\,b".toList] ∧
    processItemsExpand ("a\\\\,b".toList) = ["a,b".toList] ∧
    refProcessItems ("a\\\\,b".toList) ≠ processItemsExpand ("a\\\\,b".toList) := by
  exact ⟨rfl, rfl, rfl, by decide⟩

/-- C3 (amended): in the item splitter used by expand, a backslash followed
by comma or a brace appends only the escaped character (the backslash is
dropped at the splitting stage, so the pair is resolved early rather than
preserved raw), the section 4.3 unescape is applied to the trimmed raw
item afterwards, and for every token content free of two consecutive
backslashes the resolved items equal those of the section 4.2 reference
algorithm. -/
theorem expand_items_match_reference :
    (∀ c rest acc, (c = ',' ∨ c = lb ∨ c = rb) →
      splitExpandGo ('\\' :: c :: rest) acc = splitExpandGo rest (acc ++ [c])) ∧
    (∀ content, hasDBS content = false →
      processItemsExpand content = refProcessItems content) := by
  constructor
  · exact fun c rest acc hc => splitExpandGo_pair c rest acc hc
  · intro content h
    have hitems : ∀ r ∈ refSplitGo content [], hasDBS r = false :=
      refSplitGo_items_no_dbs content [] (by simpa using h)
    have hsplit : splitExpandGo content [] =
        (refSplitGo content []).map stripPairs := by
      have hh := splitExpandGo_strip_refSplitGo content []
        (by intro y hl; simp at hl)
      rwa [show stripPairs [] = [] from rfl] at hh
    rw [processItemsExpand, refProcessItems, processRawItems, processRawItems,
      hsplit, List.map_map]
    apply congrArg (List.filter _)
    apply List.map_eq_map_iff.mpr
    intro r hr
    exact resolved_item_stripPairs r (hitems r hr)

/-- Witness for the amended C3 at a concrete content with a single
backslash escape. -/
theorem expand_items_match_reference_witness :
    hasDBS ("a\\,b".toList) = false ∧
    processItemsExpand ("a\\,b".toList) = refProcessItems ("a\\,b".toList) :=
  ⟨by decide, expand_items_match_reference.2 ("a\\,b".toList) (by decide)⟩

/-- C2: the candidate lists computed by expand and by preview for the same
token content diverge.  On content a-backslash-backslash-comma-b the
expand splitter resolves the pair eagerly and then unescapes again,
producing the single candidate (a, comma, b), while the preview splitter
consumes the double backslash as a standard escape pair and splits at the
comma, producing the two candidates (a, backslash) and (b); the full
functions then produce different texts from the same token. -/
theorem expand_preview_candidates_diverge :
    processItemsExpand ("a\\\\,b".toList) = ["a,b".toList] ∧
    processItemsPreview ("a\\\\,b".toList) = ["a\\".toList, "b".toList] ∧
    processItemsExpand ("a\\\\,b".toList) ≠ processItemsPreview ("a\\\\,b".toList) ∧
    previewGachaPrompt ("\x7b\x7ba\\\\,b\x7d\x7d(2)".toList) = "a\\ b".toList ∧
    (∀ g σ, (parseGachaPrompt g ("\x7b\x7ba\\\\,b\x7d\x7d(2)".toList) σ).1 =
      "a,b".toList) := by
  exact ⟨rfl, rfl, by decide, rfl, fun g σ => rfl⟩

/-- C8: in both functions a token whose content yields no valid resolved
item is replaced by its own matched text regardless of count, while a
token with at least one valid item and count zero is replaced by the empty
string; on the whole-token inputs the two functions return the empty
string for a zero count. -/
theorem token_zero_and_empty_fallbacks :
    (∀ matched content count sepOpt, processItemsPreview content = [] →
      applyTokenPreview matched content count sepOpt = matched) ∧
    (∀ g matched content count sepOpt σ, processItemsExpand content = [] →
      applyTokenExpand g matched content count sepOpt σ = (matched, σ)) ∧
    (∀ matched content sepOpt, processItemsPreview content ≠ [] →
      applyTokenPreview matched content 0 sepOpt = []) ∧
    (∀ g matched content sepOpt σ, processItemsExpand content ≠ [] →
      (applyTokenExpand g matched content 0 sepOpt σ).1 = []) ∧
    previewGachaPrompt ("\x7b\x7ba,b\x7d\x7d(0)".toList) = [] ∧
    (∀ g σ, (parseGachaPrompt g ("\x7b\x7ba,b\x7d\x7d(0)".toList) σ).1 = []) := by
  refine ⟨?_, ?_, ?_, ?_, rfl, fun g σ => rfl⟩
  · intro matched content count sepOpt h
    simp [applyTokenPreview, h]
  · intro g matched content count sepOpt σ h
    simp [applyTokenExpand, h]
  · intro matched content sepOpt h
    have hie : (processItemsPreview content).isEmpty = false := by
      simp [List.isEmpty_iff, h]
    simp [applyTokenPreview, hie, List.intercalate]
  · intro g matched content sepOpt σ h
    have hie : (processItemsExpand content).isEmpty = false := by
      simp [List.isEmpty_iff, h]
    rw [applyTokenExpand]
    simp only [hie, Bool.false_eq_true, if_false]
    rw [selectRandomItems]
    rw [if_neg ?hlen]
    · simp [Nat.zero_min, List.intercalate]
    case hlen =>
      rw [Nat.zero_min]
      simp [Nat.le_zero, List.length_eq_zero, h]

/-- Witness for C8 at concrete token data. -/
theorem token_zero_and_empty_fallbacks_witness :
    applyTokenPreview ("m".toList) (",".toList) 7 none = "m".toList ∧
    applyTokenPreview ("m".toList) ("a".toList) 0 none = [] :=
  ⟨token_zero_and_empty_fallbacks.1 ("m".toList) (",".toList) 7 none (by decide),
    token_zero_and_empty_fallbacks.2.2.1 ("m".toList) ("a".toList) none
      (by decide)⟩

/-- C9 counterexample: the trimming step also removes characters outside
the set space, tab, LF, CR — the class of the source regex is the JS
whitespace class.  A leading form feed (U+000C) is removed although it is
none of the four named characters. -/
theorem trim_exact_charset_cex :
    trimItem ['\x0c', 'a'] = ['a'] ∧
    ('\x0c' ≠ ' ' ∧ '\x0c' ≠ '\t' ∧ '\x0c' ≠ '\n' ∧ '\x0c' ≠ '\r') ∧
    previewGachaPrompt ("\x7b\x7b\x0ca,b\x7d\x7d(2)".toList) = "a b".toList := by
  exact ⟨rfl, by decide, rfl⟩

theorem dropWhile_head_not (p : Char → Bool) (l : Str) (x : Char) (xs : Str)
    (h : l.dropWhile p = x :: xs) : p x = false := by
  have hpos : 0 < (l.dropWhile p).length := by
    rw [h]
    simp
  have h2 := List.dropWhile_get_zero_not p l hpos
  rw [List.get_of_eq h] at h2
  simpa using h2

/-- C9 (amended): the trimming step removes exactly the JS whitespace
class characters (space, tab, LF, CR together with VT, FF, NBSP, BOM and
the Unicode space and line separators) from the leading and trailing ends
— the input decomposes as removed-whitespace prefix, the trimmed result
and removed-whitespace suffix, so all interior characters are preserved
verbatim — and the trimmed result neither starts nor ends with such a
character. -/
theorem trimItem_spec (s : Str) :
    s = s.takeWhile jsWhitespace ++ trimItem s ++
      (s.dropWhile jsWhitespace).rtakeWhile jsWhitespace ∧
    (∀ c ∈ s.takeWhile jsWhitespace, jsWhitespace c = true) ∧
    (∀ c ∈ (s.dropWhile jsWhitespace).rtakeWhile jsWhitespace,
      jsWhitespace c = true) ∧
    jsWhitespace ((trimItem s).headD 'a') = false ∧
    jsWhitespace ((trimItem s).getLastD 'a') = false := by
  refine ⟨?_, fun c hc => List.mem_takeWhile_imp hc,
    fun c hc => List.mem_rtakeWhile_imp hc, ?_, ?_⟩
  · conv_lhs => rw [← List.takeWhile_append_dropWhile (p := jsWhitespace)
      (l := s)]
    rw [trimItem, List.append_assoc,
      rdropWhile_append_rtakeWhile jsWhitespace (s.dropWhile jsWhitespace)]
  · cases htr : trimItem s with
    | nil => decide
    | cons x xs =>
      obtain ⟨t, ht⟩ := List.rdropWhile_prefix jsWhitespace
        (s.dropWhile jsWhitespace)
      rw [trimItem] at htr
      rw [htr] at ht
      have hws := dropWhile_head_not jsWhitespace s x (xs ++ t) ht.symm
      exact hws
  · cases htr : trimItem s with
    | nil => decide
    | cons x xs =>
      have hne : trimItem s ≠ [] := by rw [htr]; exact List.cons_ne_nil x xs
      rw [trimItem] at hne
      have hlast := List.rdropWhile_last_not jsWhitespace
        (s.dropWhile jsWhitespace) hne
      rw [← htr, trimItem, List.getLastD_eq_getLast?,
        List.getLast?_eq_getLast _ hne]
      simpa using hlast

/-- Witness for the amended C9 at a concrete input. -/
theorem trimItem_spec_witness :
    jsWhitespace ' ' = true ∧
    " a ".toList = (" a ".toList).takeWhile jsWhitespace ++
      trimItem (" a ".toList) ++
      ((" a ".toList).dropWhile jsWhitespace).rtakeWhile jsWhitespace :=
  ⟨(trimItem_spec (" a ".toList)).2.1 ' ' (by decide),
    (trimItem_spec (" a ".toList)).1⟩

/-- C10: the separator quotes are matched independently, so a token whose
separator opens with a single quote and closes with a double quote is
accepted (with the enclosed text as separator), while an unescaped quote
character inside the separator body makes the whole token fail to match,
leaving the entire substring untouched by both functions. -/
theorem separator_quote_matching :
    previewGachaPrompt ("\x7b\x7ba,b\x7d\x7d(2, 'x\")".toList) =
      "axb".toList ∧
    (∀ g σ,
      (parseGachaPrompt g ("\x7b\x7ba,b\x7d\x7d(2, 'x\")".toList) σ).1 =
        "axb".toList ∨
      (parseGachaPrompt g ("\x7b\x7ba,b\x7d\x7d(2, 'x\")".toList) σ).1 =
        "bxa".toList) ∧
    previewGachaPrompt ("\x7b\x7ba,b\x7d\x7d(2, 'x'y')".toList) =
      "\x7b\x7ba,b\x7d\x7d(2, 'x'y')".toList ∧
    (∀ g σ, parseGachaPrompt g ("\x7b\x7ba,b\x7d\x7d(2, 'x'y')".toList) σ =
      ("\x7b\x7ba,b\x7d\x7d(2, 'x'y')".toList, σ)) := by
  refine ⟨rfl, ?_, rfl, fun g σ => expandScan_eq_self g _ _ σ le_rfl (by decide)⟩
  intro g σ
  have e : (parseGachaPrompt g ("\x7b\x7ba,b\x7d\x7d(2, 'x\")".toList) σ).1 =
      List.intercalate ['x'] (swapAt [['a'], ['b']] 1 (g σ)) ++ [] := rfl
  rw [e]
  cases g σ with
  | zero =>
    right
    rfl
  | succ k =>
    cases k with
    | zero =>
      left
      rfl
    | succ n =>
      left
      rfl

end ImageGacha
